import Mathlib

/-
Verification development for the two utility scripts of the repository:
fetch_video_assets.py (manifest resolver and downloader) and
upload_to_s3.py (directory-to-bucket uploader).

The Python functions are translated into executable Lean definitions.
Strings are handled through their underlying character lists.  Network
activity is modelled by a function from URLs to an optional body
(some body = HTTP 200 with that body, none = any non-success status or
transport error), and the observable behaviour of a run is modelled as a
trace of events.  The potentially diverging manifest loop takes explicit
fuel; running out of fuel models a run that is still going.
-/

/-! ## Character and list helpers -/

/-- The single quote character, kept as an explicit code point. -/
def sqc : Char := Char.ofNat 39

/-- The double quote character, kept as an explicit code point. -/
def dqc : Char := Char.ofNat 34

/-- Python whitespace for str.strip and for the regex class backslash-s
(space, tab, newline, carriage return, vertical tab, form feed). -/
def isPyWs (c : Char) : Bool :=
  c == ' ' || c == '\t' || c == '\n' || c == '\r' ||
  c == Char.ofNat 11 || c == Char.ofNat 12

/-- One of the two quote characters recognised by the cURL-string regexes. -/
def isQuoteChar (c : Char) : Bool := c == sqc || c == dqc

/-- Python str.strip(): remove leading and trailing whitespace. -/
def pyStripL (l : List Char) : List Char :=
  ((l.dropWhile isPyWs).reverse.dropWhile isPyWs).reverse

/-! ## urllib.parse: urlsplit, urlunsplit, urljoin

Model of CPython urllib.parse restricted to what the script exercises.
The params component of the 6-tuple urlparse is folded into the path
(urlunparse joins it back with a semicolon, so urljoin computed on the
5-tuple agrees with the 6-tuple computation); get_filename_from_url
strips the params from the basename explicitly. -/

structure UrlParts where
  scheme : List Char
  netloc : List Char
  path : List Char
  query : List Char
  fragment : List Char
deriving DecidableEq, Repr

/-- Characters allowed in a scheme after the first (CPython scheme_chars). -/
def isSchemeChar (c : Char) : Bool :=
  c.isAlpha || c.isDigit || c == '+' || c == '-' || c == '.'

/-- Split a URL at the first colon when the part before it is a valid
scheme (first char alphabetic, remaining chars scheme characters); the
scheme is lowercased, mirroring urlsplit. -/
def splitScheme (cs : List Char) : Option (List Char × List Char) :=
  let pre := cs.takeWhile (fun c => c != ':')
  if pre.length < cs.length then
    match pre with
    | [] => none
    | c0 :: rest =>
      if c0.isAlpha && rest.all isSchemeChar then
        some ((c0 :: rest).map Char.toLower, cs.drop (pre.length + 1))
      else none
  else none

/-- Split a list at the first occurrence of a separator character; when
the separator is absent the second component is empty (mirrors the
Python idiom of conditional str.split(sep, 1)). -/
def splitFirst (sep : Char) (cs : List Char) : List Char × List Char :=
  let pre := cs.takeWhile (fun c => c != sep)
  if pre.length < cs.length then (pre, cs.drop (pre.length + 1)) else (cs, [])

/-- Characters ending the netloc portion of a URL. -/
def isNetlocEnd (c : Char) : Bool := c == '/' || c == '?' || c == '#'

/-- urlsplit with a default scheme (CPython urlsplit(url, scheme)). -/
def urlsplitCore (cs : List Char) (defScheme : List Char) : UrlParts :=
  let sr := match splitScheme cs with
    | some p => p
    | none => (defScheme, cs)
  let scheme := sr.1
  let rest := sr.2
  let nr :=
    if rest.take 2 = ['/', '/'] then
      let nl := (rest.drop 2).takeWhile (fun c => !isNetlocEnd c)
      (nl, (rest.drop 2).drop nl.length)
    else ([], rest)
  let fr := splitFirst '#' nr.2
  let pq := splitFirst '?' fr.1
  ⟨scheme, nr.1, pq.1, pq.2, fr.2⟩

/-- urlunsplit: reassemble the five components. -/
def urlunsplitCore (p : UrlParts) : List Char :=
  let u0 :=
    if p.netloc ≠ [] ∨ (p.path ≠ [] ∧ p.path.take 2 = ['/', '/']) then
      ['/', '/'] ++ p.netloc ++
        (if p.path ≠ [] ∧ p.path.take 1 ≠ ['/'] then '/' :: p.path else p.path)
    else p.path
  let u1 := if p.scheme ≠ [] then p.scheme ++ ':' :: u0 else u0
  let u2 := if p.query ≠ [] then u1 ++ '?' :: p.query else u1
  if p.fragment ≠ [] then u2 ++ '#' :: p.fragment else u2

/-- Schemes for which relative resolution is performed (uses_relative). -/
def usesRelative : List (List Char) :=
  [[], "ftp".data, "http".data, "gopher".data, "nntp".data, "imap".data,
   "wais".data, "file".data, "https".data, "shttp".data, "mms".data,
   "prospero".data, "rtsp".data, "rtspu".data, "sftp".data, "svn".data,
   "svn+ssh".data, "ws".data, "wss".data]

/-- Schemes that carry a network location (uses_netloc). -/
def usesNetloc : List (List Char) :=
  [[], "ftp".data, "http".data, "gopher".data, "nntp".data, "telnet".data,
   "imap".data, "wais".data, "file".data, "mms".data, "https".data,
   "shttp".data, "snews".data, "prospero".data, "rtsp".data, "rtspu".data,
   "rsync".data, "svn".data, "svn+ssh".data, "sftp".data, "nfs".data,
   "git".data, "git+ssh".data, "ws".data, "wss".data, "itms-services".data]

/-- Keep the first and last element, drop empty strings in between
(the Python slice assignment segments[1:-1] = filter(None, ...)). -/
def filterMidAux : List (List Char) → List (List Char)
  | [] => []
  | [x] => [x]
  | x :: rest => if x = [] then filterMidAux rest else x :: filterMidAux rest

/-- Apply filterMidAux after the first element. -/
def filterMiddle : List (List Char) → List (List Char)
  | [] => []
  | a :: rest => a :: filterMidAux rest

/-- One step of the dot-segment resolution loop: pop on a double dot
(silently ignoring pops of an empty stack), skip a single dot,
push anything else. -/
def resolveStep (acc : List (List Char)) (seg : List Char) : List (List Char) :=
  if seg = "..".data then acc.dropLast
  else if seg = ".".data then acc
  else acc ++ [seg]

/-- urljoin for character lists, following the CPython implementation. -/
def urljoinCore (base url : List Char) : List Char :=
  if base = [] then url
  else if url = [] then base
  else
    let b := urlsplitCore base []
    let u := urlsplitCore url b.scheme
    if u.scheme ≠ b.scheme ∨ ¬ usesRelative.contains u.scheme then url
    else if usesNetloc.contains u.scheme ∧ u.netloc ≠ [] then
      urlunsplitCore ⟨u.scheme, u.netloc, u.path, u.query, u.fragment⟩
    else
      let netloc := if usesNetloc.contains u.scheme then b.netloc else u.netloc
      if u.path = [] then
        urlunsplitCore ⟨u.scheme, netloc, b.path,
          (if u.query = [] then b.query else u.query), u.fragment⟩
      else
        let bp := b.path.splitOn '/'
        let bp2 := if bp.getLast? = some [] then bp else bp.dropLast
        let segments :=
          if u.path.take 1 = ['/'] then u.path.splitOn '/'
          else filterMiddle (bp2 ++ u.path.splitOn '/')
        let resolved := segments.foldl resolveStep []
        let resolved2 :=
          if segments.getLast? = some "..".data ∨ segments.getLast? = some ".".data
          then resolved ++ [[]] else resolved
        let joined := List.intercalate ['/'] resolved2
        let joined2 := if joined = [] then ['/'] else joined
        urlunsplitCore ⟨u.scheme, netloc, joined2, u.query, u.fragment⟩

/-- urljoin on strings. -/
def urljoin (base url : String) : String :=
  String.mk (urljoinCore base.data url.data)

/-! ## find_references

The Python function matches the multiline regex
caret (?!#) ( .* backslash-ext (?: backslash-? .* )? ) dollar
with re.findall over the body and resolves every stripped match against
the base URL.  With MULTILINE, each match is exactly one full line that
does not begin with the comment character and that either ends in the
extension or contains the extension followed by a question mark; the
single capture group spans the whole line. -/

/-- pat occurs as a contiguous subsequence of l. -/
def hasSeq (pat : List Char) : List Char → Bool
  | [] => pat.isPrefixOf []
  | c :: cs => pat.isPrefixOf (c :: cs) || hasSeq pat cs

/-- A line (no newline inside) matches the reference regex body:
it ends with the extension, or contains extension-question-mark. -/
def matchesRefPat (ext l : List Char) : Bool :=
  ext.isSuffixOf l || hasSeq (ext ++ ['?']) l

/-- A line produces a match: it does not begin with the comment marker
(the negative lookahead at line start) and matches the pattern body. -/
def refLineChars (ext l : List Char) : Bool :=
  !(l.take 1 = ['#']) && matchesRefPat ext l

/-- The lines of a body, as split at newline characters (the positions at
which MULTILINE anchors match). -/
def linesOf (content : String) : List (List Char) :=
  content.data.splitOn '\n'

/-- find_references(content, base_url, file_extension): all matching
lines, stripped and resolved against the base URL. -/
def find_references (content baseUrl ext : String) : List String :=
  ((linesOf content).filter (refLineChars ext.data)).map
    (fun l => String.mk (urljoinCore baseUrl.data (pyStripL l)))

/-! ## get_filename_from_url -/

/-- os.path.basename for a POSIX path: everything after the last slash. -/
def pathBasename (p : List Char) : List Char :=
  (p.reverse.takeWhile (fun c => c != '/')).reverse

/-- The basename of the path component of a URL as urlparse sees it:
urlparse additionally splits params (a semicolon part of the last
segment) off the path, so the basename stops at the first semicolon. -/
def urlPathBasename (url : List Char) : List Char :=
  (pathBasename (urlsplitCore url []).path).takeWhile (fun c => c != ';')

/-- get_filename_from_url(url): basename of the parsed path, with a
default of index.m3u8 when the basename is empty. -/
def get_filename_from_url (url : String) : String :=
  let filename := urlPathBasename url.data
  if filename = [] then "index.m3u8" else String.mk filename

/-! ## extract_headers

Model of re.findall with the pattern
dash H backslash-s* quote? ( nonquote+ ) quote?
over the cURL string: the scanner tries each position left to right and,
on a match, resumes after it.  The whitespace star is greedy with
backtracking; the optional quote is greedy; the nonquote class is greedy
and must capture at least one character. -/

/-- Consume one closing quote if present (the trailing optional quote). -/
def dropOptQuote : List Char → List Char
  | [] => []
  | c :: cs => if isQuoteChar c then cs else c :: cs

/-- Attempt quote? ( nonquote+ ) quote? at the given position, returning
the captured group and the remainder after the whole match. -/
def tryHeaderTail (after : List Char) : Option (List Char × List Char) :=
  match after with
  | [] => none
  | c :: cs =>
    if isQuoteChar c then
      let g := cs.takeWhile (fun d => !isQuoteChar d)
      if g = [] then none
      else some (g, dropOptQuote (cs.drop g.length))
    else
      let g := (c :: cs).takeWhile (fun d => !isQuoteChar d)
      if g = [] then none
      else some (g, dropOptQuote ((c :: cs).drop g.length))

/-- Backtracking for the greedy whitespace star: try consuming s
whitespace characters, then s-1, ... down to zero. -/
def trySpaces : Nat → List Char → Option (List Char × List Char)
  | 0, rest => tryHeaderTail rest
  | s + 1, rest =>
    match tryHeaderTail (rest.drop (s + 1)) with
    | some r => some r
    | none => trySpaces s rest

/-- Attempt the whole header pattern at the current position. -/
def matchHAt : List Char → Option (List Char × List Char)
  | '-' :: 'H' :: rest => trySpaces (rest.takeWhile isPyWs).length rest
  | _ => none

lemma dropOptQuote_length_le (cs : List Char) : (dropOptQuote cs).length ≤ cs.length := by
  cases cs with
  | nil => simp [dropOptQuote]
  | cons c cs =>
    simp only [dropOptQuote]
    split <;> simp

lemma tryHeaderTail_length_lt {after g r} (h : tryHeaderTail after = some (g, r)) :
    r.length < after.length := by
  unfold tryHeaderTail at h
  cases after with
  | nil => simp at h
  | cons c cs =>
    simp only at h
    split at h
    · split at h
      · simp at h
      · simp only [Option.some.injEq, Prod.mk.injEq] at h
        obtain ⟨-, hr⟩ := h
        subst hr
        calc (dropOptQuote (cs.drop _)).length ≤ (cs.drop _).length :=
              dropOptQuote_length_le _
          _ ≤ cs.length := by simp
          _ < (c :: cs).length := by simp
    · rename_i hq
      split at h
      · simp at h
      · rename_i hg
        simp only [Option.some.injEq, Prod.mk.injEq] at h
        obtain ⟨hgeq, hr⟩ := h
        subst hr
        rw [hgeq]
        have h1 : (dropOptQuote ((c :: cs).drop g.length)).length ≤
            ((c :: cs).drop g.length).length := dropOptQuote_length_le _
        have h2 : 0 < g.length := by
          cases hng : g with
          | nil => rw [hng] at hgeq; exact absurd hgeq hg
          | cons a as => simp
        have h3 : ((c :: cs).drop g.length).length = (c :: cs).length - g.length := by
          simp
        simp only [List.length_cons] at h3 ⊢
        omega

lemma trySpaces_length_lt {s rest g r} (h : trySpaces s rest = some (g, r)) :
    r.length < rest.length := by
  induction s with
  | zero => exact tryHeaderTail_length_lt h
  | succ s ih =>
    unfold trySpaces at h
    split at h
    · rename_i p heq
      cases p with
      | mk a b =>
        have := tryHeaderTail_length_lt heq
        have hd : (rest.drop (s + 1)).length ≤ rest.length := by simp
        simp only [Option.some.injEq, Prod.mk.injEq] at h
        obtain ⟨-, hr⟩ := h
        subst hr
        omega
    · exact ih h

lemma matchHAt_length_lt {cs g r} (h : matchHAt cs = some (g, r)) :
    r.length < cs.length := by
  unfold matchHAt at h
  split at h
  · rename_i rest
    have := trySpaces_length_lt h
    simp only [List.length_cons]
    omega
  · simp at h

/-- re.findall for the header pattern: scan left to right, emit each
captured group, resume scanning after each match.  The gas parameter
keeps the recursion structural; a match or a skip always consumes at
least one character, so gas equal to the input length never runs out
(proved below). -/
def findallHAux : Nat → List Char → List (List Char)
  | 0, _ => []
  | _ + 1, [] => []
  | gas + 1, c :: cs2 =>
    match matchHAt (c :: cs2) with
    | some gr => gr.1 :: findallHAux gas gr.2
    | none => findallHAux gas cs2

/-- re.findall for the header pattern over the whole string. -/
def findallH (cs : List Char) : List (List Char) :=
  findallHAux cs.length cs

/-- Split a captured header at the first colon-space separator
(str.split with maxsplit one); none models the IndexError raised by the
dictionary comprehension when the separator is absent. -/
def splitColonSpace : List Char → Option (List Char × List Char)
  | [] => none
  | c :: rest =>
    if c = ':' ∧ rest.take 1 = [' '] then some ([], rest.drop 1)
    else
      match splitColonSpace rest with
      | some p => some (c :: p.1, p.2)
      | none => none

/-- Insert into the model of a Python dict: overwrite in place when the
key is already present (keeping its position), append otherwise. -/
def dictInsert (d : List (String × String)) (k v : String) : List (String × String) :=
  if d.any (fun p => p.1 == k) then
    d.map (fun p => if p.1 == k then (k, v) else p)
  else d ++ [(k, v)]

/-- Build the header dictionary from the captured groups, in order. -/
def buildHeaderDict : List (List Char) → List (String × String) → Option (List (String × String))
  | [], acc => some acc
  | g :: gs, acc =>
    match splitColonSpace g with
    | none => none
    | some p => buildHeaderDict gs (dictInsert acc (String.mk p.1) (String.mk p.2))

/-- extract_headers(curl_command); none models the uncaught IndexError
for a captured declaration without a colon-space separator. -/
def extract_headers (curlCommand : String) : Option (List (String × String)) :=
  buildHeaderDict (findallH curlCommand.data) []

/-! ## extract_url

Model of re.search with the pattern
curl backslash-s+ quote? ( https?:// nonspace-nonquote+ ) quote?
returning the first captured group, then the manifest-suffix check. -/

/-- A character of the URL body class: neither whitespace nor a quote. -/
def isUrlChar (c : Char) : Bool := !isPyWs c && !isQuoteChar c

/-- Attempt https?:// nonspace-nonquote+ at the given position,
returning the captured group (which starts at the scheme). -/
def tryScheme (cs : List Char) : Option (List Char) :=
  match cs with
  | 'h' :: 't' :: 't' :: 'p' :: rest =>
    match rest with
    | 's' :: ':' :: '/' :: '/' :: body =>
      let run := body.takeWhile isUrlChar
      if run = [] then none else some ("https://".data ++ run)
    | ':' :: '/' :: '/' :: body =>
      let run := body.takeWhile isUrlChar
      if run = [] then none else some ("http://".data ++ run)
    | _ => none
  | _ => none

/-- quote? then the scheme part, at the given position. -/
def tryUrlTail (after : List Char) : Option (List Char) :=
  match after with
  | [] => none
  | c :: cs => if isQuoteChar c then tryScheme cs else tryScheme (c :: cs)

/-- Backtracking for the greedy whitespace plus: try s characters of
whitespace, then s-1, ... down to one. -/
def tryUrlSpaces : Nat → List Char → Option (List Char)
  | 0, _ => none
  | s + 1, rest =>
    match tryUrlTail (rest.drop (s + 1)) with
    | some g => some g
    | none => tryUrlSpaces s rest

/-- Attempt the whole URL pattern at the current position. -/
def matchUrlAt : List Char → Option (List Char)
  | 'c' :: 'u' :: 'r' :: 'l' :: rest => tryUrlSpaces (rest.takeWhile isPyWs).length rest
  | _ => none

/-- re.search for the URL pattern: the group of the leftmost match. -/
def searchUrl : List Char → Option (List Char)
  | [] => none
  | c :: cs =>
    match matchUrlAt (c :: cs) with
    | some g => some g
    | none => searchUrl cs

/-- The part of a URL before the first question mark
(url.split with separator question mark, first component). -/
def stripQuery (cs : List Char) : List Char :=
  cs.takeWhile (fun c => c != '?')

/-- extract_url(curl_command): the first URL match, validated to end in
the manifest suffix ignoring the query string; errors model the two
ValueError messages. -/
def extract_url (curlCommand : String) : Except String String :=
  match searchUrl curlCommand.data with
  | none => Except.error "No URL found in the cURL command."
  | some g =>
    if ".m3u8".data.isSuffixOf (stripQuery g) then Except.ok (String.mk g)
    else Except.error "The URL does not point to an .m3u8 file."

/-! ## fetch_and_save_m3u8_and_ts

The network is a function from URL to an optional body.  The loop over
m3u8_files iterates a list that grows while being iterated (a Python
for-loop over a list extended inside the loop walks it by index), which
is modelled as a queue: the current head is processed and newly found
manifest URLs are appended behind the current tail.  Explicit fuel
bounds the number of iterations; completed records whether the queue
was emptied within the fuel. -/

/-- Observable events of a run, in order.  The fetch events are the
network requests; the save events are the local file writes (with the
written content); the error events are the reported, skipped
per-resource failures. -/
inductive Event where
  | fetchManifest (url : String)
  | saveManifest (name content : String)
  | manifestError (url : String)
  | fetchSegment (url : String)
  | saveSegment (name content : String)
  | segmentError (url : String)
deriving DecidableEq, Repr

/-- Events of the discovery phase over manifests. -/
def Event.isManifestEvent : Event → Bool
  | .fetchManifest _ => true
  | .saveManifest _ _ => true
  | .manifestError _ => true
  | _ => false

/-- Events of the fetch phase over segments. -/
def Event.isSegmentEvent : Event → Bool
  | .fetchSegment _ => true
  | .saveSegment _ _ => true
  | .segmentError _ => true
  | _ => false

/-- Result of draining the manifest queue. -/
structure DrainResult where
  events : List Event
  tsQueue : List String
  completed : Bool
deriving Repr

/-- The loop over pending manifests: fetch the head, save its body,
append discovered manifests to the queue and discovered segments to the
segment list; on a failed fetch report and continue with the tail. -/
def processManifests (net : String → Option String) : Nat → List String → DrainResult
  | 0, pending => ⟨[], [], pending.isEmpty⟩
  | _ + 1, [] => ⟨[], [], true⟩
  | fuel + 1, m :: rest =>
    match net m with
    | none =>
      let r := processManifests net fuel rest
      ⟨Event.fetchManifest m :: Event.manifestError m :: r.events, r.tsQueue, r.completed⟩
    | some content =>
      let r := processManifests net fuel (rest ++ find_references content m ".m3u8")
      ⟨Event.fetchManifest m ::
         Event.saveManifest (get_filename_from_url m) content :: r.events,
       find_references content m ".ts" ++ r.tsQueue, r.completed⟩

/-- The loop over the collected segment URLs: download each one and
save it, reporting and skipping failures. -/
def downloadSegments (net : String → Option String) : List String → List Event
  | [] => []
  | u :: rest =>
    Event.fetchSegment u ::
      (match net u with
       | some body => Event.saveSegment (get_filename_from_url u) body
       | none => Event.segmentError u) :: downloadSegments net rest

/-- fetch_and_save_m3u8_and_ts(curl_command): extract headers and URL
(either failure aborts the run with no events), drain the manifest
queue seeded with the extracted URL, then download every collected
segment.  The Boolean is true when the manifest queue emptied within
the fuel; otherwise the run is still in the discovery phase and the
trace contains the discovery events so far. -/
def fetch_and_save_m3u8_and_ts (net : String → Option String) (fuel : Nat)
    (curlCommand : String) : Except String (List Event × Bool) :=
  match extract_headers curlCommand with
  | none => Except.error "IndexError: header declaration without separator"
  | some _ =>
    match extract_url curlCommand with
    | Except.error e => Except.error e
    | Except.ok url =>
      let r := processManifests net fuel [url]
      if r.completed then
        Except.ok (r.events ++ downloadSegments net r.tsQueue, true)
      else Except.ok (r.events, false)

/-! ## Local filesystem model

Manifest bodies and segment bodies are written to
save_directory joined with the file name derived from the URL; open with
mode w and the binary download both truncate, so a later write to the
same name silently replaces an earlier one.  The filesystem is an
association list from file name to content, folded over the events. -/

/-- Write a file: replace the content in place or append a new entry. -/
def setFile (fs : List (String × String)) (name content : String) :
    List (String × String) :=
  if fs.any (fun p => p.1 == name) then
    fs.map (fun p => if p.1 == name then (name, content) else p)
  else fs ++ [(name, content)]

/-- Apply one event to the filesystem (only saves write). -/
def applyEvent (fs : List (String × String)) : Event → List (String × String)
  | .saveManifest name content => setFile fs name content
  | .saveSegment name content => setFile fs name content
  | _ => fs

/-- The filesystem after a trace, starting from empty. -/
def finalFS (trace : List Event) : List (String × String) :=
  trace.foldl applyEvent []

/-- Look up a file by name. -/
def fsLookup (fs : List (String × String)) (name : String) : Option String :=
  match fs.find? (fun p => p.1 == name) with
  | some p => some p.2
  | none => none

/-! ## The manifest reference graph -/

/-- One discovery edge: u successfully fetches and its body references
v as a nested manifest. -/
def manifestEdge (net : String → Option String) (u v : String) : Prop :=
  ∃ c, net u = some c ∧ v ∈ find_references c u ".m3u8"

/-! ## upload_to_s3

The filesystem tree under the source directory is a list of entries;
paths are modelled at the component level (the script runs on POSIX
separators, which coincide with the storage key convention).  os.walk
yields the files of a directory first and then recurses into its
subdirectories in listing order. -/

inductive Entry where
  | file (name : String)
  | dir (name : String) (children : List Entry)
deriving Repr

/-- The regular file names among the entries, in listing order. -/
def filesOf : List Entry → List String
  | [] => []
  | .file n :: es => n :: filesOf es
  | .dir _ _ :: es => filesOf es

mutual
/-- The subdirectory part of the walk: recurse into each directory in
listing order. -/
def walkDirsPaths (root : List String) : List Entry → List (List String)
  | [] => []
  | .file _ :: es => walkDirsPaths root es
  | .dir n cs :: es => walkPaths (root ++ [n]) cs ++ walkDirsPaths root es
termination_by es => (sizeOf es, 0)

/-- The full file paths visited by os.walk from the given root, in
upload order: the files of the root directory first, then the files of
each subtree. -/
def walkPaths (root : List String) (es : List Entry) : List (List String) :=
  (filesOf es).map (fun f => root ++ [f]) ++ walkDirsPaths root es
termination_by (sizeOf es, 1)
end

/-- The length of the longest common prefix of two component lists
(os.path.commonprefix applied to the two split paths). -/
def commonPrefixLen : List String → List String → Nat
  | a :: as, b :: bs => if a = b then commonPrefixLen as bs + 1 else 0
  | _, _ => 0

/-- os.path.relpath at the component level: walk up with double dots
past the non-shared part of start, then down the non-shared part of the
path. -/
def relpathList (path start : List String) : List String :=
  let i := commonPrefixLen start path
  List.replicate (start.length - i) ".." ++ path.drop i

/-- One upload call: local file path, bucket, object key. -/
structure UploadCall where
  filePath : List String
  bucket : String
  key : String
deriving DecidableEq, Repr

/-- The upload calls issued by the walk loop: one call per regular
file, keyed by the path relative to the source directory. -/
def uploadCalls (source : List String) (es : List Entry) (bucket : String) :
    List UploadCall :=
  (walkPaths source es).map
    (fun p => ⟨p, bucket, String.intercalate "/" (relpathList p source)⟩)

/-- Outcome of upload_directory_to_s3: an early return with an error
message before any network activity, or a completed walk with its
upload calls. -/
inductive UploadOutcome where
  | missingParam (msg : String)
  | ran (calls : List UploadCall)
deriving Repr

/-- The effective credential: the explicit argument when given,
otherwise the environment value (os.getenv may itself be none). -/
def effectiveCred (explicit env : Option String) : Option String :=
  match explicit with
  | none => env
  | some v => some v

/-- A credential value is falsy when absent or empty (Python not). -/
def credMissing : Option String → Bool
  | none => true
  | some v => v == ""

/-- upload_directory_to_s3: fill missing credentials from the
environment, check the four required values in order and return early
when one is missing, otherwise walk and upload.  The source directory
is a component list (empty list = empty string argument). -/
def upload_directory_to_s3 (source : List String) (tree : List Entry)
    (bucket : String) (akid skey envAkid envSkey : Option String) : UploadOutcome :=
  if credMissing (effectiveCred akid envAkid) then
    .missingParam "Error: Missing AWS Access Key ID"
  else if credMissing (effectiveCred skey envSkey) then
    .missingParam "Error: Missing AWS Secret Access Key"
  else if source = [] then .missingParam "Error: Missing source directory"
  else if bucket = "" then .missingParam "Error: Missing S3 bucket name"
  else .ran (uploadCalls source tree bucket)

/-! ## A well-formed request description

The family of request descriptions used to state the extraction
property: a curl word, the quoted manifest URL, then one single-quoted
header declaration per header pair. -/

/-- One header declaration chunk. -/
def headerChunk (h : String × String) : List Char :=
  [' ', '-', 'H', ' ', sqc] ++ h.1.data ++ [':', ' '] ++ h.2.data ++ [sqc]

/-- The header declarations of a request description. -/
def hdrsData : List (String × String) → List Char
  | [] => []
  | h :: t => headerChunk h ++ hdrsData t

/-- A well-formed request description as a character list. -/
def mkCurlData (url : List Char) (hs : List (String × String)) : List Char :=
  "curl ".data ++ sqc :: (url ++ sqc :: hdrsData hs)

/-- A well-formed request description. -/
def mkCurl (url : String) (hs : List (String × String)) : String :=
  String.mk (mkCurlData url.data hs)

/-! ## Concrete fixtures used by the witnesses -/

/-- A three-resource network: a master manifest referencing a variant
manifest, which references one segment. -/
def net1 : String → Option String := fun u =>
  if u == "https://x.test/master.m3u8" then some "#EXTM3U\nvariant1.m3u8\n"
  else if u == "https://x.test/variant1.m3u8" then some "#EXTM3U\nseg0.ts\n"
  else if u == "https://x.test/seg0.ts" then some "SEGDATA"
  else none

/-- The request description for the three-resource network. -/
def curl13 : String := mkCurl "https://x.test/master.m3u8" [("Authorization", "Bearer t")]

/-- The trace of the run of the three-resource network. -/
def trace13 : List Event :=
  [Event.fetchManifest "https://x.test/master.m3u8",
   Event.saveManifest "master.m3u8" "#EXTM3U\nvariant1.m3u8\n",
   Event.fetchManifest "https://x.test/variant1.m3u8",
   Event.saveManifest "variant1.m3u8" "#EXTM3U\nseg0.ts\n",
   Event.fetchSegment "https://x.test/seg0.ts",
   Event.saveSegment "seg0.ts" "SEGDATA"]

/-- A network where every request fails. -/
def netAcyc : String → Option String := fun _ => none

/-- A network with a manifest that references itself. -/
def netCyc : String → Option String := fun u =>
  if u == "http://h/a.m3u8" then some "a.m3u8" else none

/-- A network with two distinct segment URLs whose paths share the
basename s.ts. -/
def net10 : String → Option String := fun u =>
  if u == "http://a/p/s.ts" then some "ONE"
  else if u == "http://b/q/s.ts?x=1" then some "TWO"
  else none

/-- A request description whose URL does not end in the manifest
suffix. -/
def curl6 : String := mkCurl "https://h/video.mp4" []

/-- A URL from which a cycle of the manifest reference graph is
reachable. -/
def leadsToCycle (net : String → Option String) (u : String) : Prop :=
  ∃ v, Relation.ReflTransGen (manifestEdge net) u v ∧
    Relation.TransGen (manifestEdge net) v v

/-- Specification-side enumeration of a directory tree: the relative
component path of every regular file, in listing order. -/
def filesRel : List Entry → List (List String)
  | [] => []
  | .file n :: es => [n] :: filesRel es
  | .dir n cs :: es => (filesRel cs).map (fun p => n :: p) ++ filesRel es

/-- The directory-entry part of filesRel. -/
def dirsRel : List Entry → List (List String)
  | [] => []
  | .file _ :: es => dirsRel es
  | .dir n cs :: es => (filesRel cs).map (fun p => n :: p) ++ dirsRel es

/-! ## General list lemmas -/

lemma takeWhile_split {α : Type} (p : α → Bool) :
    ∀ cs : List α, (cs.takeWhile p).length < cs.length →
      ∃ c rest2, p c = false ∧ cs = cs.takeWhile p ++ c :: rest2 ∧
        cs.drop ((cs.takeWhile p).length + 1) = rest2 := by
  intro cs
  induction cs with
  | nil => intro h; simp at h
  | cons a as ih =>
    intro h
    by_cases hp : p a
    · rw [List.takeWhile_cons_of_pos hp] at h ⊢
      simp only [List.length_cons, Nat.add_lt_add_iff_right] at h
      obtain ⟨c, r2, hc, heq, hdrop⟩ := ih h
      refine ⟨c, r2, hc, ?_, ?_⟩
      · rw [List.cons_append]
        exact congrArg (a :: ·) heq
      · simpa using hdrop
    · have hp2 : p a = false := by simpa using hp
      rw [List.takeWhile_cons_of_neg hp] at h ⊢
      exact ⟨a, as, hp2, by simp, by simp⟩

lemma suffix_append_cases {α : Type} (X Y s : List α) (h : s <:+ X ++ Y) :
    s <:+ Y ∨ ∃ s1, s1 ≠ [] ∧ s1 <:+ X ∧ s = s1 ++ Y := by
  induction X with
  | nil => exact Or.inl (by simpa using h)
  | cons x X2 ih =>
    rw [List.cons_append, List.suffix_cons_iff] at h
    rcases h with h | h
    · exact Or.inr ⟨x :: X2, by simp, List.suffix_refl _, by simpa using h⟩
    · rcases ih h with h2 | ⟨s1, h1, h2, h3⟩
      · exact Or.inl h2
      · exact Or.inr ⟨s1, h1, h2.trans (X2.suffix_cons x), h3⟩

lemma takeWhile_append_all {α : Type} (p : α → Bool) (A : List α) (y : α) (B : List α)
    (hA : ∀ a ∈ A, p a = true) (hy : p y = false) :
    (A ++ y :: B).takeWhile p = A := by
  induction A with
  | nil =>
    simp only [List.nil_append]
    exact List.takeWhile_cons_of_neg (by simp [hy])
  | cons a as ih =>
    rw [List.cons_append, List.takeWhile_cons_of_pos (hA a (by simp))]
    rw [ih (fun b hb => hA b (by simp [hb]))]

lemma hasSeq_of_prefix_suffix {pat s l : List Char} (h1 : pat <+: s) (h2 : s <:+ l) :
    hasSeq pat l = true := by
  induction l with
  | nil =>
    have hs : s = [] := List.eq_nil_of_suffix_nil h2
    subst hs
    have hp : pat = [] := List.eq_nil_of_prefix_nil h1
    subst hp
    simp [hasSeq]
  | cons c cs ih =>
    rw [List.suffix_cons_iff] at h2
    rcases h2 with h2 | h2
    · subst h2
      simp only [hasSeq, Bool.or_eq_true]
      exact Or.inl (by simpa using h1)
    · simp only [hasSeq, Bool.or_eq_true]
      exact Or.inr (ih h2)

/-! ## Shape lemmas for the URL functions -/

lemma splitScheme_shape {cs sch r : List Char} (h : splitScheme cs = some (sch, r)) :
    ∃ pre, pre ≠ [] ∧ cs = pre ++ ':' :: r ∧ sch = pre.map Char.toLower := by
  unfold splitScheme at h
  simp only at h
  split at h
  · rename_i hlen
    split at h
    · exact absurd h (by simp)
    · rename_i c0 rest heq
      split at h
      · simp only [Option.some.injEq, Prod.mk.injEq] at h
        obtain ⟨hsch, hr⟩ := h
        obtain ⟨c, rest2, hc, hceq, hdrop⟩ := takeWhile_split _ cs hlen
        have hcol : c = ':' := by
          by_contra hne
          simp [hne] at hc
        refine ⟨cs.takeWhile (fun c => c != ':'), ?_, ?_, ?_⟩
        · rw [heq]; simp
        · have h2 : rest2 = r := by rw [← hdrop, hr]
          rw [hcol, h2] at hceq
          exact hceq
        · rw [heq, ← hsch]
      · exact absurd h (by simp)
  · exact absurd h (by simp)

lemma splitScheme_ne_nil {cs sch r : List Char} (h : splitScheme cs = some (sch, r)) :
    sch ≠ [] := by
  unfold splitScheme at h
  simp only at h
  split at h
  · split at h
    · exact absurd h (by simp)
    · split at h
      · simp only [Option.some.injEq, Prod.mk.injEq] at h
        obtain ⟨hsch, -⟩ := h
        rw [← hsch]
        simp
      · exact absurd h (by simp)
  · exact absurd h (by simp)

lemma urlsplitCore_scheme (cs defScheme : List Char) :
    (urlsplitCore cs defScheme).scheme =
      (match splitScheme cs with
       | some p => p.1
       | none => defScheme) := by
  unfold urlsplitCore
  split <;> rfl

lemma urlunsplitCore_shape (p : UrlParts) (h : p.scheme ≠ []) :
    ∃ r, urlunsplitCore p = p.scheme ++ ':' :: r := by
  unfold urlunsplitCore
  simp only [if_pos h]
  split <;> split <;>
    first
      | exact ⟨_, rfl⟩
      | exact ⟨_, by rw [List.append_assoc]; rfl⟩
      | exact ⟨_, by rw [List.append_assoc, List.append_assoc]; rfl⟩

lemma urljoinCore_abs (base url : List Char)
    (hb : (urlsplitCore base []).scheme ≠ [])
    (hbr : usesRelative.contains (urlsplitCore base []).scheme = true) :
    ∃ sch r, urljoinCore base url = sch ++ ':' :: r ∧ sch ≠ [] := by
  have hbase : base ≠ [] := by
    intro hnil
    rw [hnil] at hb
    exact hb (by rfl)
  have hbs : ∃ sr, splitScheme base = some sr := by
    rcases hsb : splitScheme base with - | sr
    · rw [urlsplitCore_scheme, hsb] at hb
      exact absurd rfl hb
    · exact ⟨sr, rfl⟩
  obtain ⟨⟨bsch, brest⟩, hsb⟩ := hbs
  unfold urljoinCore
  rw [if_neg hbase]
  by_cases hurl : url = []
  · rw [if_pos hurl]
    obtain ⟨pre, hpre, hbeq, -⟩ := splitScheme_shape hsb
    exact ⟨pre, ':' :: brest |>.tail, by rw [hbeq]; rfl, hpre⟩
  · rw [if_neg hurl]
    simp only
    split
    · rename_i hcond
      rcases hsu : splitScheme url with - | su
      · exfalso
        rw [urlsplitCore_scheme url, hsu] at hcond
        simp only at hcond
        rcases hcond with hcond | hcond
        · exact hcond rfl
        · exact hcond hbr
      · have hsu2 : splitScheme url = some (su.1, su.2) := by rw [hsu]
        obtain ⟨pre, hpre, hueq, -⟩ := splitScheme_shape hsu2
        exact ⟨pre, _, hueq, hpre⟩
    · rename_i hcond
      have hschemes : (urlsplitCore url (urlsplitCore base []).scheme).scheme =
          (urlsplitCore base []).scheme := by
        by_contra hne
        exact hcond (Or.inl hne)
      split
      · obtain ⟨r, hr⟩ := urlunsplitCore_shape
          ⟨(urlsplitCore url (urlsplitCore base []).scheme).scheme,
           (urlsplitCore url (urlsplitCore base []).scheme).netloc,
           (urlsplitCore url (urlsplitCore base []).scheme).path,
           (urlsplitCore url (urlsplitCore base []).scheme).query,
           (urlsplitCore url (urlsplitCore base []).scheme).fragment⟩
          (by simpa [hschemes] using hb)
        exact ⟨_, r, hr, by simpa [hschemes] using hb⟩
      · split
        · obtain ⟨r, hr⟩ := urlunsplitCore_shape
            ⟨(urlsplitCore url (urlsplitCore base []).scheme).scheme, _, _, _, _⟩
            (by simpa [hschemes] using hb)
          exact ⟨_, r, hr, by simpa [hschemes] using hb⟩
        · obtain ⟨r, hr⟩ := urlunsplitCore_shape
            ⟨(urlsplitCore url (urlsplitCore base []).scheme).scheme, _, _, _, _⟩
            (by simpa [hschemes] using hb)
          exact ⟨_, r, hr, by simpa [hschemes] using hb⟩

/-- C1: for every manifest body, find_references discovers exactly one
URL per non-comment line matching the reference pattern for the given
extension (counted separately for the nested-manifest and the segment
extension), each one equal to the resolution of the stripped line
against the manifest URL, and -- when the base URL carries a relative
scheme -- every discovered URL is absolute (it carries a scheme). -/
theorem c1_find_references_resolution (content baseUrl : String)
    (hb : (urlsplitCore baseUrl.data []).scheme ≠ [])
    (hbr : usesRelative.contains (urlsplitCore baseUrl.data []).scheme = true) :
    (find_references content baseUrl ".m3u8").length
      = (linesOf content).countP (refLineChars ".m3u8".data) ∧
    (find_references content baseUrl ".ts").length
      = (linesOf content).countP (refLineChars ".ts".data) ∧
    find_references content baseUrl ".m3u8"
      = ((linesOf content).filter (refLineChars ".m3u8".data)).map
          (fun l => urljoin baseUrl (String.mk (pyStripL l))) ∧
    find_references content baseUrl ".ts"
      = ((linesOf content).filter (refLineChars ".ts".data)).map
          (fun l => urljoin baseUrl (String.mk (pyStripL l))) ∧
    ∀ u ∈ find_references content baseUrl ".m3u8"
            ++ find_references content baseUrl ".ts",
      ∃ sch r, u = String.mk (sch ++ ':' :: r) ∧ sch ≠ [] := by
  refine ⟨?_, ?_, rfl, rfl, ?_⟩
  · unfold find_references
    rw [List.length_map, ← List.countP_eq_length_filter]
  · unfold find_references
    rw [List.length_map, ← List.countP_eq_length_filter]
  · intro u hu
    rcases List.mem_append.mp hu with hm | hm <;>
    · obtain ⟨l, -, hl⟩ := List.mem_map.mp hm
      obtain ⟨sch, r, heq, hne⟩ := urljoinCore_abs baseUrl.data (pyStripL l) hb hbr
      exact ⟨sch, r, by rw [← hl, heq], hne⟩

/-- Witness for C1 at a concrete body and base URL with a relative
path, an absolute path, and query strings. -/
theorem c1_witness :
    (find_references "#EXTM3U\nv1.m3u8\n/a/v2.m3u8?tok=1\nseg.ts?a=1\n"
        "http://h/d/m.m3u8" ".m3u8").length
      = (linesOf "#EXTM3U\nv1.m3u8\n/a/v2.m3u8?tok=1\nseg.ts?a=1\n").countP
          (refLineChars ".m3u8".data) ∧
    (find_references "#EXTM3U\nv1.m3u8\n/a/v2.m3u8?tok=1\nseg.ts?a=1\n"
        "http://h/d/m.m3u8" ".ts").length
      = (linesOf "#EXTM3U\nv1.m3u8\n/a/v2.m3u8?tok=1\nseg.ts?a=1\n").countP
          (refLineChars ".ts".data) ∧
    find_references "#EXTM3U\nv1.m3u8\n/a/v2.m3u8?tok=1\nseg.ts?a=1\n"
        "http://h/d/m.m3u8" ".m3u8"
      = ((linesOf "#EXTM3U\nv1.m3u8\n/a/v2.m3u8?tok=1\nseg.ts?a=1\n").filter
          (refLineChars ".m3u8".data)).map
          (fun l => urljoin "http://h/d/m.m3u8" (String.mk (pyStripL l))) ∧
    find_references "#EXTM3U\nv1.m3u8\n/a/v2.m3u8?tok=1\nseg.ts?a=1\n"
        "http://h/d/m.m3u8" ".ts"
      = ((linesOf "#EXTM3U\nv1.m3u8\n/a/v2.m3u8?tok=1\nseg.ts?a=1\n").filter
          (refLineChars ".ts".data)).map
          (fun l => urljoin "http://h/d/m.m3u8" (String.mk (pyStripL l))) ∧
    ∀ u ∈ find_references "#EXTM3U\nv1.m3u8\n/a/v2.m3u8?tok=1\nseg.ts?a=1\n"
              "http://h/d/m.m3u8" ".m3u8"
            ++ find_references "#EXTM3U\nv1.m3u8\n/a/v2.m3u8?tok=1\nseg.ts?a=1\n"
              "http://h/d/m.m3u8" ".ts",
      ∃ sch r, u = String.mk (sch ++ ':' :: r) ∧ sch ≠ [] :=
  c1_find_references_resolution _ _ (by decide) (by decide)

/-- C2 counterexample: the code excludes only lines whose first
character is the comment marker; a line whose comment marker is
preceded by whitespace still yields a reference even though its first
non-whitespace character is the marker. -/
theorem c2_counterexample :
    ((" #x.ts".data.dropWhile isPyWs).take 1 = ['#']) ∧
    find_references " #x.ts" "http://h/m.m3u8" ".ts"
      = ["http://h/m.m3u8#x.ts"] := by
  exact ⟨by decide, by decide⟩

/-- C2 amended: a line is excluded from reference discovery exactly
when its first character (not its first non-whitespace character) is
the comment marker; in particular a body all of whose lines begin with
the marker yields no references at all. -/
theorem c2_amended (content baseUrl ext : String)
    (h : ∀ l ∈ linesOf content, l.take 1 = ['#']) :
    find_references content baseUrl ext = [] := by
  have hf : (linesOf content).filter (refLineChars ext.data) = [] :=
    List.filter_eq_nil_iff.mpr (fun l hl => by simp [refLineChars, h l hl])
  unfold find_references
  rw [hf]
  rfl

/-- Witness for the amended C2. -/
theorem c2_amended_witness :
    (∀ l ∈ linesOf "#a.ts\n#b.m3u8", l.take 1 = ['#']) ∧
    find_references "#a.ts\n#b.m3u8" "http://h/m.m3u8" ".ts" = [] :=
  ⟨by decide, c2_amended _ _ _ (by decide)⟩

/-- C10: the local save name of a fetched resource is derived solely
from the basename of the parsed path of its URL (the query string and
every parent component are discarded by the parse-then-basename
computation, and index.m3u8 is used when the basename is empty), so any
two URLs whose parsed paths share a basename are saved under the same
name, and a later save under a name silently replaces the content of an
earlier save under that name. -/
theorem c10_filename_overwrite :
    (∀ u : String, get_filename_from_url u =
        (if urlPathBasename u.data = [] then "index.m3u8"
         else String.mk (urlPathBasename u.data))) ∧
    (∀ u1 u2 : String, urlPathBasename u1.data = urlPathBasename u2.data →
        get_filename_from_url u1 = get_filename_from_url u2) ∧
    (∀ u : String, urlPathBasename u.data = [] →
        get_filename_from_url u = "index.m3u8") ∧
    (∀ (net : String → Option String) (u1 u2 b1 b2 : String),
        u1 ≠ u2 → get_filename_from_url u1 = get_filename_from_url u2 →
        net u1 = some b1 → net u2 = some b2 →
        fsLookup (finalFS (downloadSegments net [u1, u2]))
            (get_filename_from_url u1) = some b2) := by
  refine ⟨fun u => rfl, ?_, ?_, ?_⟩
  · intro u1 u2 h
    unfold get_filename_from_url
    rw [h]
  · intro u h
    unfold get_filename_from_url
    rw [h]
    rfl
  · intro net u1 u2 b1 b2 hne hname h1 h2
    simp only [downloadSegments, h1, h2, ← hname]
    generalize get_filename_from_url u1 = n
    simp only [finalFS, List.foldl_cons, List.foldl_nil, applyEvent]
    simp [setFile, fsLookup]

/-- Witness for C10: two distinct URLs with different hosts, parents
and query strings but the same path basename collide; the second
download survives. -/
theorem c10_witness :
    "http://a/p/s.ts" ≠ "http://b/q/s.ts?x=1" ∧
    get_filename_from_url "http://a/p/s.ts"
      = get_filename_from_url "http://b/q/s.ts?x=1" ∧
    fsLookup (finalFS (downloadSegments net10 ["http://a/p/s.ts", "http://b/q/s.ts?x=1"]))
        (get_filename_from_url "http://a/p/s.ts") = some "TWO" :=
  ⟨by decide, by decide,
   c10_filename_overwrite.2.2.2 net10 "http://a/p/s.ts" "http://b/q/s.ts?x=1"
     "ONE" "TWO" (by decide) (by decide) rfl rfl⟩

/-! ## Lemmas about the manifest loop -/

lemma drain_mem_fetch (net : String → Option String) :
    ∀ (fuel : Nat) (pending : List String),
      (processManifests net fuel pending).completed = true →
      ∀ m ∈ pending,
        Event.fetchManifest m ∈ (processManifests net fuel pending).events := by
  intro fuel
  induction fuel with
  | zero =>
    intro pending h m hm
    simp only [processManifests] at h
    rw [List.isEmpty_iff] at h
    subst h
    simp at hm
  | succ n ih =>
    intro pending h m hm
    cases pending with
    | nil => simp at hm
    | cons m0 rest =>
      cases hnet : net m0 with
      | none =>
        simp only [processManifests, hnet] at h ⊢
        rcases List.mem_cons.mp hm with rfl | hm2
        · simp
        · exact List.mem_cons_of_mem _ (List.mem_cons_of_mem _ (ih rest h m hm2))
      | some c =>
        simp only [processManifests, hnet] at h ⊢
        rcases List.mem_cons.mp hm with rfl | hm2
        · simp
        · have hm3 : m ∈ rest ++ find_references c m0 ".m3u8" :=
            List.mem_append_left _ hm2
          exact List.mem_cons_of_mem _ (List.mem_cons_of_mem _ (ih _ h m hm3))

lemma drain_transitive (net : String → Option String) :
    ∀ (fuel : Nat) (pending : List String),
      (processManifests net fuel pending).completed = true →
      ∀ m c, Event.fetchManifest m ∈ (processManifests net fuel pending).events →
        net m = some c →
        ∀ u ∈ find_references c m ".m3u8",
          Event.fetchManifest u ∈ (processManifests net fuel pending).events := by
  intro fuel
  induction fuel with
  | zero =>
    intro pending h m c hmem
    simp [processManifests] at hmem
  | succ n ih =>
    intro pending h m c hmem hnet u hu
    cases pending with
    | nil => simp [processManifests] at hmem
    | cons m0 rest =>
      cases hn0 : net m0 with
      | none =>
        simp only [processManifests, hn0] at h hmem ⊢
        rcases List.mem_cons.mp hmem with h1 | hmem2
        · have hm : m = m0 := by simpa using h1
          subst hm
          rw [hnet] at hn0
          exact absurd hn0 (by simp)
        · rcases List.mem_cons.mp hmem2 with h1 | hmem3
          · simp at h1
          · exact List.mem_cons_of_mem _
              (List.mem_cons_of_mem _ (ih rest h m c hmem3 hnet u hu))
      | some c0 =>
        simp only [processManifests, hn0] at h hmem ⊢
        rcases List.mem_cons.mp hmem with h1 | hmem2
        · have hm : m = m0 := by simpa using h1
          subst hm
          rw [hnet] at hn0
          have hc : c0 = c := by
            have h5 := hn0
            simp only [Option.some.injEq] at h5
            exact h5.symm
          subst hc
          have humem : u ∈ rest ++ find_references c0 m ".m3u8" :=
            List.mem_append_right _ hu
          exact List.mem_cons_of_mem _ (List.mem_cons_of_mem _
            (drain_mem_fetch net n _ h u humem))
        · rcases List.mem_cons.mp hmem2 with h1 | hmem3
          · simp at h1
          · exact List.mem_cons_of_mem _
              (List.mem_cons_of_mem _ (ih _ h m c hmem3 hnet u hu))

lemma drain_events_manifest (net : String → Option String) :
    ∀ (fuel : Nat) (pending : List String),
      ∀ e ∈ (processManifests net fuel pending).events, e.isManifestEvent = true := by
  intro fuel
  induction fuel with
  | zero => intro pending e he; simp [processManifests] at he
  | succ n ih =>
    intro pending e he
    cases pending with
    | nil => simp [processManifests] at he
    | cons m0 rest =>
      cases hn0 : net m0 with
      | none =>
        simp only [processManifests, hn0] at he
        rcases List.mem_cons.mp he with rfl | he2
        · rfl
        · rcases List.mem_cons.mp he2 with rfl | he3
          · rfl
          · exact ih rest e he3
      | some c0 =>
        simp only [processManifests, hn0] at he
        rcases List.mem_cons.mp he with rfl | he2
        · rfl
        · rcases List.mem_cons.mp he2 with rfl | he3
          · rfl
          · exact ih _ e he3

lemma downloadSegments_events_segment (net : String → Option String) :
    ∀ (ts : List String), ∀ e ∈ downloadSegments net ts, e.isSegmentEvent = true := by
  intro ts
  induction ts with
  | nil => intro e he; simp [downloadSegments] at he
  | cons u rest ih =>
    intro e he
    simp only [downloadSegments] at he
    rcases List.mem_cons.mp he with rfl | he2
    · rfl
    · rcases List.mem_cons.mp he2 with he3 | he4
      · cases hn : net u <;> rw [hn] at he3 <;> subst he3 <;> rfl
      · exact ih e he4

lemma downloadSegments_fetch_mem (net : String → Option String) :
    ∀ (ts : List String), ∀ u ∈ ts,
      Event.fetchSegment u ∈ downloadSegments net ts := by
  intro ts
  induction ts with
  | nil => intro u hu; simp at hu
  | cons v rest ih =>
    intro u hu
    rcases List.mem_cons.mp hu with rfl | hu2
    · simp [downloadSegments]
    · simp only [downloadSegments]
      exact List.mem_cons_of_mem _ (List.mem_cons_of_mem _ (ih u hu2))

/-- C3: when a run completes (the queue emptied within the fuel), its
trace splits into a prefix of discovery-phase events followed by a
suffix of segment-phase events (no segment download happens before
every queued manifest has been processed), the extracted root URL is
fetched, and the queue is fully drained transitively: every nested
manifest discovered in the body of a fetched manifest is itself
fetched. -/
theorem c3_phase_separation (net : String → Option String) (fuel : Nat)
    (curl : String) (ev : List Event)
    (h : fetch_and_save_m3u8_and_ts net fuel curl = Except.ok (ev, true)) :
    (∃ A B, ev = A ++ B ∧ (∀ e ∈ A, e.isManifestEvent = true) ∧
       (∀ e ∈ B, e.isSegmentEvent = true)) ∧
    (∃ url, extract_url curl = Except.ok url ∧ Event.fetchManifest url ∈ ev) ∧
    (∀ m c, Event.fetchManifest m ∈ ev → net m = some c →
       ∀ u ∈ find_references c m ".m3u8", Event.fetchManifest u ∈ ev) := by
  unfold fetch_and_save_m3u8_and_ts at h
  cases hh : extract_headers curl with
  | none => rw [hh] at h; exact absurd h (by simp)
  | some hd =>
    rw [hh] at h
    cases hu : extract_url curl with
    | error e => rw [hu] at h; exact absurd h (by simp)
    | ok url =>
      rw [hu] at h
      simp only at h
      split at h
      · rename_i hcomp
        simp only [Except.ok.injEq, Prod.mk.injEq, and_true] at h
        subst h
        refine ⟨⟨(processManifests net fuel [url]).events,
                 downloadSegments net (processManifests net fuel [url]).tsQueue,
                 rfl,
                 fun e he => drain_events_manifest net fuel [url] e he,
                 fun e he => downloadSegments_events_segment net _ e he⟩,
                ⟨url, rfl, ?_⟩, ?_⟩
        · exact List.mem_append_left _
            (drain_mem_fetch net fuel [url] hcomp url (by simp))
        · intro m c hm hnet u hu2
          rcases List.mem_append.mp hm with hm2 | hm2
          · exact List.mem_append_left _
              (drain_transitive net fuel [url] hcomp m c hm2 hnet u hu2)
          · have hseg := downloadSegments_events_segment net _ _ hm2
            simp [Event.isSegmentEvent] at hseg
      · exact absurd h (by simp)

/-- Witness for C3 at the three-resource network. -/
theorem c3_witness :
    (∃ A B, trace13 = A ++ B ∧ (∀ e ∈ A, e.isManifestEvent = true) ∧
       (∀ e ∈ B, e.isSegmentEvent = true)) ∧
    (∃ url, extract_url curl13 = Except.ok url ∧ Event.fetchManifest url ∈ trace13) ∧
    (∀ m c, Event.fetchManifest m ∈ trace13 → net1 m = some c →
       ∀ u ∈ find_references c m ".m3u8", Event.fetchManifest u ∈ trace13) :=
  c3_phase_separation net1 10 curl13 trace13 (by rfl)

/-- C4: a failed manifest fetch is recoverable: the failure is
reported, the faulty manifest is skipped, and the run continues exactly
as the run over the remaining queue (same further events, same segment
list, same completion); every other queued manifest is still fetched
when the queue drains, and every collected segment URL is still
requested by the segment phase. -/
theorem c4_recoverable_manifest_failure (net : String → Option String)
    (fuel : Nat) (m : String) (rest : List String) (h : net m = none) :
    processManifests net (fuel + 1) (m :: rest) =
      ⟨Event.fetchManifest m :: Event.manifestError m ::
         (processManifests net fuel rest).events,
       (processManifests net fuel rest).tsQueue,
       (processManifests net fuel rest).completed⟩ ∧
    ((processManifests net fuel rest).completed = true →
       ∀ m2 ∈ rest, Event.fetchManifest m2 ∈ (processManifests net fuel rest).events) ∧
    (∀ (ts : List String) (u : String), u ∈ ts →
       Event.fetchSegment u ∈ downloadSegments net ts) := by
  refine ⟨?_, fun hc m2 hm2 => drain_mem_fetch net fuel rest hc m2 hm2,
          fun ts u hu => downloadSegments_fetch_mem net ts u hu⟩
  simp [processManifests, h]

/-- Witness for C4: the first queued manifest is unreachable, the
second is still processed. -/
theorem c4_witness :
    processManifests net1 (2 + 1)
        ("https://x.test/missing.m3u8" :: ["https://x.test/variant1.m3u8"]) =
      ⟨Event.fetchManifest "https://x.test/missing.m3u8" ::
         Event.manifestError "https://x.test/missing.m3u8" ::
         (processManifests net1 2 ["https://x.test/variant1.m3u8"]).events,
       (processManifests net1 2 ["https://x.test/variant1.m3u8"]).tsQueue,
       (processManifests net1 2 ["https://x.test/variant1.m3u8"]).completed⟩ ∧
    ((processManifests net1 2 ["https://x.test/variant1.m3u8"]).completed = true →
       ∀ m2 ∈ ["https://x.test/variant1.m3u8"],
         Event.fetchManifest m2 ∈
           (processManifests net1 2 ["https://x.test/variant1.m3u8"]).events) ∧
    (∀ (ts : List String) (u : String), u ∈ ts →
       Event.fetchSegment u ∈ downloadSegments net1 ts) :=
  c4_recoverable_manifest_failure net1 2 "https://x.test/missing.m3u8"
    ["https://x.test/variant1.m3u8"] (by decide)

/-! ## Unfolding lemmas for the header scanner -/

lemma findallHAux_eq :
    ∀ (n : Nat) (cs : List Char), cs.length ≤ n →
      ∀ gas, cs.length ≤ gas → findallHAux gas cs = findallHAux cs.length cs := by
  intro n
  induction n with
  | zero =>
    intro cs hcs gas hgas
    have h0 : cs = [] := List.eq_nil_of_length_eq_zero (Nat.le_zero.mp hcs)
    subst h0
    cases gas <;> rfl
  | succ n ih =>
    intro cs hcs gas hgas
    cases cs with
    | nil => cases gas <;> rfl
    | cons c cs2 =>
      simp only [List.length_cons] at hcs hgas
      cases gas with
      | zero => omega
      | succ g =>
        have hg : cs2.length ≤ g := by omega
        cases hm : matchHAt (c :: cs2) with
        | some gr =>
          have hlt := matchHAt_length_lt hm
          simp only [List.length_cons] at hlt
          simp only [findallHAux, hm]
          have h1 : findallHAux g gr.2 = findallHAux gr.2.length gr.2 :=
            ih gr.2 (by omega) g (by omega)
          have h2 : findallHAux cs2.length gr.2 = findallHAux gr.2.length gr.2 :=
            ih gr.2 (by omega) cs2.length (by omega)
          rw [h1, h2]
        | none =>
          simp only [findallHAux, hm]
          have h1 : findallHAux g cs2 = findallHAux cs2.length cs2 :=
            ih cs2 (by omega) g hg
          rw [h1]

lemma findallH_cons_some {c : Char} {cs g r : List Char}
    (h : matchHAt (c :: cs) = some (g, r)) :
    findallH (c :: cs) = g :: findallH r := by
  have hlt := matchHAt_length_lt h
  simp only [List.length_cons] at hlt
  unfold findallH
  simp only [List.length_cons, findallHAux, h]
  rw [findallHAux_eq cs.length r (by omega) cs.length (by omega)]

lemma findallH_cons_none {c : Char} {cs : List Char}
    (h : matchHAt (c :: cs) = none) :
    findallH (c :: cs) = findallH cs := by
  unfold findallH
  simp only [List.length_cons, findallHAux, h]

/-- C6: when the request description contains no URL-pattern match, or
the first match (stripped of its query string) does not end in the
manifest suffix, extract_url fails with the corresponding ValueError
and the whole run aborts with that error before any event (and hence
before any network request) happens. -/
theorem c6_validation_failure (curl : String)
    (h : searchUrl curl.data = none ∨
         ∃ g, searchUrl curl.data = some g ∧
           ".m3u8".data.isSuffixOf (stripQuery g) = false) :
    (∃ e, extract_url curl = Except.error e) ∧
    (∀ (net : String → Option String) (fuel : Nat),
       ∃ e2, fetch_and_save_m3u8_and_ts net fuel curl = Except.error e2) := by
  have herr : ∃ e, extract_url curl = Except.error e := by
    rcases h with h | ⟨g, hg, hsuf⟩
    · exact ⟨_, by unfold extract_url; rw [h]⟩
    · refine ⟨"The URL does not point to an .m3u8 file.", ?_⟩
      unfold extract_url
      rw [hg]
      simp [hsuf]
  obtain ⟨e, he⟩ := herr
  refine ⟨⟨e, he⟩, ?_⟩
  intro net fuel
  unfold fetch_and_save_m3u8_and_ts
  cases hh : extract_headers curl with
  | none => exact ⟨_, rfl⟩
  | some hd =>
    rw [he]
    exact ⟨e, rfl⟩

/-- Witness for C6: a description whose URL ends in a media extension
rather than the manifest suffix. -/
theorem c6_witness :
    (∃ e, extract_url curl6 = Except.error e) ∧
    (∀ (net : String → Option String) (fuel : Nat),
       ∃ e2, fetch_and_save_m3u8_and_ts net fuel curl6 = Except.error e2) :=
  c6_validation_failure curl6
    (Or.inr ⟨"https://h/video.mp4".data, by rfl, by rfl⟩)

/-- C8: whenever the access key (after falling back to the
environment) is falsy, or the secret key is falsy, or the source
directory is empty, or the bucket name is empty,
upload_directory_to_s3 returns a missing-parameter report, issuing no
upload call and creating no storage client. -/
theorem c8_fail_fast (source : List String) (tree : List Entry) (bucket : String)
    (akid skey envAkid envSkey : Option String)
    (h : credMissing (effectiveCred akid envAkid) = true ∨
         credMissing (effectiveCred skey envSkey) = true ∨
         source = [] ∨ bucket = "") :
    ∃ msg, upload_directory_to_s3 source tree bucket akid skey envAkid envSkey
      = UploadOutcome.missingParam msg := by
  have heq : upload_directory_to_s3 source tree bucket akid skey envAkid envSkey =
      (if credMissing (effectiveCred akid envAkid) then
        UploadOutcome.missingParam "Error: Missing AWS Access Key ID"
      else if credMissing (effectiveCred skey envSkey) then
        UploadOutcome.missingParam "Error: Missing AWS Secret Access Key"
      else if source = [] then
        UploadOutcome.missingParam "Error: Missing source directory"
      else if bucket = "" then
        UploadOutcome.missingParam "Error: Missing S3 bucket name"
      else UploadOutcome.ran (uploadCalls source tree bucket)) := rfl
  rw [heq]
  split_ifs with h1 h2 h3 h4
  · exact ⟨_, rfl⟩
  · exact ⟨_, rfl⟩
  · exact ⟨_, rfl⟩
  · exact ⟨_, rfl⟩
  · exfalso
    rcases h with h | h | h | h
    · exact h1 h
    · exact h2 h
    · exact h3 h
    · exact h4 h

/-- Witness for C8: the access key is absent from both the arguments
and the environment. -/
theorem c8_witness :
    ∃ msg, upload_directory_to_s3 ["src"] [] "bkt" none (some "k") none (some "e")
      = UploadOutcome.missingParam msg :=
  c8_fail_fast ["src"] [] "bkt" none (some "k") none (some "e") (Or.inl (by rfl))

/-! ## Termination and divergence of the manifest loop -/

lemma drain_fuel_sufficient (net : String → Option String) (rank : String → Nat)
    (B : Nat)
    (hrank : ∀ u c, net u = some c →
        (find_references c u ".m3u8").length ≤ B ∧
        ∀ v ∈ find_references c u ".m3u8", rank v < rank u) :
    ∀ (fuel : Nat) (pending : List String),
      (pending.map (fun u => (B + 1) ^ rank u)).sum < fuel →
      (processManifests net fuel pending).completed = true := by
  intro fuel
  induction fuel with
  | zero => intro pending h; omega
  | succ n ih =>
    intro pending h
    cases pending with
    | nil => simp [processManifests]
    | cons m rest =>
      have hmpos : 0 < (B + 1) ^ rank m := Nat.pos_pow_of_pos _ (by omega)
      simp only [List.map_cons, List.sum_cons] at h
      cases hnet : net m with
      | none =>
        simp only [processManifests, hnet]
        exact ih rest (by omega)
      | some c =>
        simp only [processManifests, hnet]
        apply ih
        rw [List.map_append, List.sum_append]
        obtain ⟨hlen, hlt⟩ := hrank m c hnet
        have hrefs : ((find_references c m ".m3u8").map
            (fun u => (B + 1) ^ rank u)).sum < (B + 1) ^ rank m := by
          cases hrm : rank m with
          | zero =>
            have hempty : find_references c m ".m3u8" = [] := by
              cases hfr : find_references c m ".m3u8" with
              | nil => rfl
              | cons v vs =>
                exfalso
                have hv := hlt v (by rw [hfr]; simp)
                omega
            simp [hempty]
          | succ k =>
            have hterm : ∀ x ∈ (find_references c m ".m3u8").map
                (fun u => (B + 1) ^ rank u), x ≤ (B + 1) ^ k := by
              intro x hx
              obtain ⟨v, hv, hxe⟩ := List.mem_map.mp hx
              have hrv : rank v < rank m := hlt v hv
              rw [← hxe]
              apply Nat.pow_le_pow_right (by omega)
              omega
            have hsum := List.sum_le_card_nsmul _ _ hterm
            rw [List.length_map] at hsum
            have hs2 : ((find_references c m ".m3u8").map
                (fun u => (B + 1) ^ rank u)).sum ≤ B * (B + 1) ^ k := by
              calc ((find_references c m ".m3u8").map
                  (fun u => (B + 1) ^ rank u)).sum
                  ≤ (find_references c m ".m3u8").length • (B + 1) ^ k := hsum
                _ = (find_references c m ".m3u8").length * (B + 1) ^ k := by
                    rw [smul_eq_mul]
                _ ≤ B * (B + 1) ^ k := Nat.mul_le_mul_right _ hlen
            have hppos : 0 < (B + 1) ^ k := Nat.pos_pow_of_pos _ (by omega)
            have heq : (B + 1) ^ (k + 1) = B * (B + 1) ^ k + (B + 1) ^ k := by
              rw [pow_succ]
              ring
            omega
        omega

lemma leadsToCycle_step (net : String → Option String) (m : String)
    (h : leadsToCycle net m) :
    ∃ w, manifestEdge net m w ∧ leadsToCycle net w := by
  obtain ⟨v, hmv, hvv⟩ := h
  rcases Relation.ReflTransGen.cases_head hmv with heq | ⟨w, hmw, hwv⟩
  · subst heq
    obtain ⟨w, hmw, hwm⟩ := Relation.TransGen.head'_iff.mp hvv
    exact ⟨w, hmw, _, hwm, hvv⟩
  · exact ⟨w, hmw, v, hwv, hvv⟩

lemma drain_never_completes (net : String → Option String) :
    ∀ (fuel : Nat) (pending : List String),
      (∃ u ∈ pending, leadsToCycle net u) →
      (processManifests net fuel pending).completed = false := by
  intro fuel
  induction fuel with
  | zero =>
    intro pending h
    obtain ⟨u, hu, -⟩ := h
    cases pending with
    | nil => simp at hu
    | cons m rest => simp [processManifests]
  | succ n ih =>
    intro pending h
    obtain ⟨u, hu, hlc⟩ := h
    cases pending with
    | nil => simp at hu
    | cons m rest =>
      rcases List.mem_cons.mp hu with rfl | hu2
      · obtain ⟨w, ⟨c, hc, hw⟩, hwlc⟩ := leadsToCycle_step net u hlc
        simp only [processManifests, hc]
        exact ih _ ⟨w, List.mem_append_right _ hw, hwlc⟩
      · cases hnet : net m with
        | none =>
          simp only [processManifests, hnet]
          exact ih _ ⟨u, hu2, hlc⟩
        | some c =>
          simp only [processManifests, hnet]
          exact ih _ ⟨u, List.mem_append_left _ hu2, hlc⟩

/-- C9: the manifest loop drains its queue within some fuel whenever
the reference graph reachable through the network is finite and
acyclic -- encoded by a rank function that every discovery edge
strictly decreases together with a bound on the number of nested
manifests per body -- and it never drains the queue (for no amount of
fuel, i.e. the Python loop never terminates) as soon as some vertex on
a reference cycle is reachable from the root, because discovered URLs
are re-enqueued without de-duplication. -/
theorem c9_termination (net : String → Option String) (root : String) :
    ((∃ (rank : String → Nat) (B : Nat),
        ∀ u c, net u = some c →
          (find_references c u ".m3u8").length ≤ B ∧
          ∀ v ∈ find_references c u ".m3u8", rank v < rank u) →
      ∃ fuel, (processManifests net fuel [root]).completed = true) ∧
    ((∃ v, Relation.ReflTransGen (manifestEdge net) root v ∧
        Relation.TransGen (manifestEdge net) v v) →
      ∀ fuel, (processManifests net fuel [root]).completed = false) := by
  constructor
  · rintro ⟨rank, B, hrank⟩
    exact ⟨([root].map (fun u => (B + 1) ^ rank u)).sum + 1,
      drain_fuel_sufficient net rank B hrank _ [root] (by omega)⟩
  · intro h fuel
    exact drain_never_completes net fuel [root] ⟨root, by simp, h⟩

/-- Witness for C9: a network where every fetch fails is acyclic and
its run terminates; a network with a self-referencing manifest never
terminates. -/
theorem c9_witness :
    (∃ fuel, (processManifests netAcyc fuel ["http://h/a.m3u8"]).completed = true) ∧
    (∀ fuel, (processManifests netCyc fuel ["http://h/a.m3u8"]).completed = false) :=
  ⟨(c9_termination netAcyc "http://h/a.m3u8").1
      ⟨fun _ => 0, 0, fun u c hc => by simp [netAcyc] at hc⟩,
   (c9_termination netCyc "http://h/a.m3u8").2
      ⟨"http://h/a.m3u8", Relation.ReflTransGen.refl,
       Relation.TransGen.single ⟨"a.m3u8", rfl, by decide⟩⟩⟩

/-! ## Lemmas for the uploader walk -/

lemma commonPrefixLen_append (l r : List String) :
    commonPrefixLen l (l ++ r) = l.length := by
  induction l with
  | nil => cases r <;> rfl
  | cons a as ih => simp [commonPrefixLen, ih]

lemma relpathList_append (start rest : List String) :
    relpathList (start ++ rest) start = rest := by
  unfold relpathList
  rw [commonPrefixLen_append]
  simp [List.drop_left]

lemma filesRel_perm_split :
    ∀ es : List Entry,
      List.Perm (filesRel es) ((filesOf es).map (fun n => [n]) ++ dirsRel es) := by
  intro es
  induction es with
  | nil => simp [filesRel, filesOf, dirsRel]
  | cons e es2 ih =>
    cases e with
    | file nm =>
      simp only [filesRel, filesOf, dirsRel, List.map_cons, List.cons_append]
      exact ih.cons _
    | dir nm cs =>
      simp only [filesRel, filesOf, dirsRel]
      have h1 : List.Perm ((filesRel cs).map (fun p => nm :: p) ++ filesRel es2)
          ((filesRel cs).map (fun p => nm :: p)
            ++ ((filesOf es2).map (fun n => [n]) ++ dirsRel es2)) :=
        ih.append_left _
      have h2 : List.Perm
          ((filesRel cs).map (fun p => nm :: p)
            ++ ((filesOf es2).map (fun n => [n]) ++ dirsRel es2))
          ((filesOf es2).map (fun n => [n])
            ++ ((filesRel cs).map (fun p => nm :: p) ++ dirsRel es2)) := by
        rw [← List.append_assoc, ← List.append_assoc]
        exact List.perm_append_comm.append_right _
      exact h1.trans h2

lemma walk_relpath_perm (source : List String) :
    ∀ (n : Nat) (es : List Entry), sizeOf es ≤ n → ∀ extra : List String,
      List.Perm
        ((walkPaths (source ++ extra) es).map (fun p => relpathList p source))
        ((filesRel es).map (fun q => extra ++ q)) ∧
      List.Perm
        ((walkDirsPaths (source ++ extra) es).map (fun p => relpathList p source))
        ((dirsRel es).map (fun q => extra ++ q)) := by
  intro n
  induction n with
  | zero =>
    intro es h extra
    exfalso
    cases es <;> simp [List.cons.sizeOf_spec] at h
  | succ n ih =>
    intro es h extra
    have hdirs :
        List.Perm
          ((walkDirsPaths (source ++ extra) es).map (fun p => relpathList p source))
          ((dirsRel es).map (fun q => extra ++ q)) := by
      cases es with
      | nil => simp [walkDirsPaths, dirsRel]
      | cons e es2 =>
        cases e with
        | file nm =>
          simp only [walkDirsPaths, dirsRel]
          refine (ih es2 ?_ extra).2
          simp only [List.cons.sizeOf_spec] at h
          omega
        | dir nm cs =>
          simp only [walkDirsPaths, dirsRel, List.map_append]
          apply List.Perm.append
          · have hs : sizeOf cs ≤ n := by
              simp only [List.cons.sizeOf_spec, Entry.dir.sizeOf_spec] at h
              omega
            have h1 := (ih cs hs (extra ++ [nm])).1
            rw [← List.append_assoc] at h1
            have h2 : (filesRel cs).map (fun q => (extra ++ [nm]) ++ q)
                = ((filesRel cs).map (fun p => nm :: p)).map (fun q => extra ++ q) := by
              rw [List.map_map]
              apply List.map_congr_left
              intro a _
              simp
            rw [h2] at h1
            exact h1
          · refine (ih es2 ?_ extra).2
            simp only [List.cons.sizeOf_spec] at h
            omega
    refine ⟨?_, hdirs⟩
    have hsplit := (filesRel_perm_split es).map (fun q => extra ++ q)
    rw [List.map_append, List.map_map] at hsplit
    simp only [walkPaths, List.map_append]
    refine List.Perm.trans (List.Perm.append ?_ hdirs) hsplit.symm
    have hfe : ((filesOf es).map (fun f => (source ++ extra) ++ [f])).map
        (fun p => relpathList p source)
        = (filesOf es).map ((fun q => extra ++ q) ∘ (fun n => [n])) := by
      rw [List.map_map]
      apply List.map_congr_left
      intro f _
      simp only [Function.comp_apply]
      rw [List.append_assoc, relpathList_append]
    rw [hfe]

/-- C7: the uploader issues exactly one upload call per regular file
of the source tree, and the multiset of object keys is exactly the
multiset of slash-joined file paths relative to the source root
(subdirectory structure preserved; the walk visits the files of a
directory before its subtrees, so only the order differs from the
listing order of the specification-side enumeration). -/
theorem c7_upload_per_file (source : List String) (es : List Entry) (bucket : String) :
    List.Perm ((uploadCalls source es bucket).map (fun c => c.key))
      ((filesRel es).map (fun q => String.intercalate "/" q)) ∧
    (uploadCalls source es bucket).length = (filesRel es).length := by
  have hperm := (walk_relpath_perm source (sizeOf es) es (le_refl _) []).1
  rw [List.append_nil] at hperm
  have hid : (filesRel es).map (fun q => ([] : List String) ++ q) = filesRel es := by
    simp
  rw [hid] at hperm
  have hkey : (uploadCalls source es bucket).map (fun c => c.key)
      = ((walkPaths source es).map (fun p => relpathList p source)).map
          (fun q => String.intercalate "/" q) := by
    unfold uploadCalls
    rw [List.map_map, List.map_map]
    rfl
  constructor
  · rw [hkey]
    exact hperm.map _
  · have hlen := hperm.length_eq
    simp only [List.length_map] at hlen
    unfold uploadCalls
    rw [List.length_map]
    exact hlen

/-! ## Lemmas for the request-description extractors -/

lemma matchHAt_eq_none {cs : List Char} (h : cs.take 2 ≠ ['-', 'H']) :
    matchHAt cs = none := by
  rw [matchHAt.eq_def]
  split
  · exfalso
    simp at h
  · rfl

lemma findallH_append_skip (P T : List Char)
    (h : ∀ s, s ≠ [] → s <:+ P → matchHAt (s ++ T) = none) :
    findallH (P ++ T) = findallH T := by
  induction P with
  | nil => simp
  | cons c P2 ih =>
    have hm : matchHAt ((c :: P2) ++ T) = none :=
      h (c :: P2) (by simp) (List.suffix_refl _)
    rw [List.cons_append] at hm
    rw [List.cons_append, findallH_cons_none hm]
    exact ih (fun s hs hsuf => h s hs (hsuf.trans (P2.suffix_cons c)))

lemma splitColonSpace_append (N V : List Char)
    (h : hasSeq [':', ' '] N = false) :
    splitColonSpace (N ++ ':' :: ' ' :: V) = some (N, V) := by
  induction N with
  | nil => simp [splitColonSpace]
  | cons c N2 ih =>
    have hcond : ¬(c = ':' ∧ (N2 ++ ':' :: ' ' :: V).take 1 = [' ']) := by
      rintro ⟨rfl, htake⟩
      cases N2 with
      | nil => simp at htake
      | cons d N3 =>
        simp only [List.cons_append, List.take_succ_cons, List.take_zero,
          List.cons.injEq, and_true] at htake
        subst htake
        have hpre : [':', ' '] <+: (':' :: ' ' :: N3) := ⟨N3, rfl⟩
        have htrue := hasSeq_of_prefix_suffix hpre (List.suffix_refl _)
        rw [htrue] at h
        exact Bool.true_eq_false.mp h
    have h2 : hasSeq [':', ' '] N2 = false := by
      have hh := h
      simp only [hasSeq, Bool.or_eq_false_iff] at hh
      exact hh.2
    rw [List.cons_append]
    rw [splitColonSpace.eq_def]
    simp only [if_neg hcond]
    rw [ih h2]

lemma dictInsert_fresh (acc : List (String × String)) (k v : String)
    (h : ∀ q ∈ acc, q.1 ≠ k) :
    dictInsert acc k v = acc ++ [(k, v)] := by
  have hfalse : ¬(acc.any (fun p => p.1 == k) = true) := by
    rw [List.any_eq_true]
    rintro ⟨q, hq, hbeq⟩
    exact h q hq (by simpa using hbeq)
  unfold dictInsert
  rw [if_neg hfalse]

lemma buildHeaderDict_distinct :
    ∀ (hs : List (String × String)) (acc : List (String × String)),
      (∀ p ∈ hs, hasSeq [':', ' '] p.1.data = false) →
      (hs.map Prod.fst).Nodup →
      (∀ p ∈ hs, ∀ q ∈ acc, q.1 ≠ p.1) →
      buildHeaderDict (hs.map (fun p => p.1.data ++ ':' :: ' ' :: p.2.data)) acc
        = some (acc ++ hs) := by
  intro hs
  induction hs with
  | nil =>
    intro acc _ _ _
    simp [buildHeaderDict]
  | cons p t ih =>
    intro acc hsep hnodup hfresh
    simp only [List.map_cons, buildHeaderDict]
    rw [splitColonSpace_append _ _ (hsep p (by simp))]
    show buildHeaderDict (t.map fun r => r.1.data ++ ':' :: ' ' :: r.2.data)
        (dictInsert acc (String.mk p.1.data) (String.mk p.2.data))
      = some (acc ++ p :: t)
    have hins : dictInsert acc (String.mk p.1.data) (String.mk p.2.data)
        = acc ++ [p] := dictInsert_fresh acc p.1 p.2 (hfresh p (by simp))
    rw [hins]
    have hnd2 : (t.map Prod.fst).Nodup := by
      simp only [List.map_cons, List.nodup_cons] at hnodup
      exact hnodup.2
    have hhead : p.1 ∉ t.map Prod.fst := by
      simp only [List.map_cons, List.nodup_cons] at hnodup
      exact hnodup.1
    have hfresh2 : ∀ r ∈ t, ∀ q ∈ acc ++ [p], q.1 ≠ r.1 := by
      intro r hr q hq
      rcases List.mem_append.mp hq with hq2 | hq2
      · exact hfresh r (by simp [hr]) q hq2
      · have hqp : q = p := by simpa using hq2
        subst hqp
        intro hne
        apply hhead
        rw [hne]
        exact List.mem_map_of_mem _ hr
    have := ih (acc ++ [p]) (fun r hr => hsep r (by simp [hr])) hnd2 hfresh2
    rw [this, List.append_assoc]
    rfl

lemma findallH_hdrsData :
    ∀ hs : List (String × String),
      (∀ p ∈ hs, (∀ c ∈ p.1.data, isQuoteChar c = false) ∧
          (∀ c ∈ p.2.data, isQuoteChar c = false)) →
      findallH (hdrsData hs)
        = hs.map (fun p => p.1.data ++ ':' :: ' ' :: p.2.data) := by
  intro hs
  induction hs with
  | nil => intro _; rfl
  | cons p t ih =>
    intro hq
    have hqp := hq p (by simp)
    have hmid : ∀ a ∈ p.1.data ++ ':' :: ' ' :: p.2.data,
        (fun d => !isQuoteChar d) a = true := by
      intro a ha
      rcases List.mem_append.mp ha with ha2 | ha2
      · simp [hqp.1 a ha2]
      · rcases List.mem_cons.mp ha2 with rfl | ha3
        · decide
        · rcases List.mem_cons.mp ha3 with rfl | ha4
          · decide
          · simp [hqp.2 a ha4]
    have hshape : hdrsData (p :: t)
        = ' ' :: '-' :: 'H' :: ' ' :: sqc ::
            ((p.1.data ++ ':' :: ' ' :: p.2.data) ++ sqc :: hdrsData t) := by
      show headerChunk p ++ hdrsData t = _
      simp [headerChunk, List.append_assoc]
    have hmne : p.1.data ++ ':' :: ' ' :: p.2.data ≠ [] := by
      cases hp1 : p.1.data <;> simp
    have htt : tryHeaderTail (sqc ::
        ((p.1.data ++ ':' :: ' ' :: p.2.data) ++ sqc :: hdrsData t))
        = some (p.1.data ++ ':' :: ' ' :: p.2.data, hdrsData t) := by
      have htk := takeWhile_append_all (fun d => !isQuoteChar d)
        (p.1.data ++ ':' :: ' ' :: p.2.data) sqc (hdrsData t) hmid (by decide)
      simp only [tryHeaderTail, if_pos (show isQuoteChar sqc = true by decide)]
      rw [htk]
      rw [if_neg hmne]
      rw [List.drop_left]
      simp [dropOptQuote, show isQuoteChar sqc = true by decide]
    have htw : ((' ' :: sqc ::
        ((p.1.data ++ ':' :: ' ' :: p.2.data) ++ sqc :: hdrsData t)).takeWhile
          isPyWs) = [' '] := by
      rw [List.takeWhile_cons_of_pos (by decide)]
      rw [List.takeWhile_cons_of_neg (by decide)]
    have hmatch : matchHAt ('-' :: 'H' :: ' ' :: sqc ::
        ((p.1.data ++ ':' :: ' ' :: p.2.data) ++ sqc :: hdrsData t))
        = some (p.1.data ++ ':' :: ' ' :: p.2.data, hdrsData t) := by
      simp only [matchHAt]
      rw [htw]
      simp only [List.length_cons, List.length_nil, Nat.zero_add]
      simp only [trySpaces, List.drop_succ_cons, List.drop_zero]
      rw [htt]
    have hskip : matchHAt (' ' :: '-' :: 'H' :: ' ' :: sqc ::
        ((p.1.data ++ ':' :: ' ' :: p.2.data) ++ sqc :: hdrsData t)) = none :=
      matchHAt_eq_none (by simp)
    rw [hshape, findallH_cons_none hskip, findallH_cons_some hmatch,
      ih (fun r hr => hq r (by simp [hr]))]
    rfl

lemma matchHAt_cons_ne {c : Char} (cs : List Char) (h : c ≠ '-') :
    matchHAt (c :: cs) = none := by
  apply matchHAt_eq_none
  rw [List.take_succ_cons]
  intro h2
  injection h2 with h3 h4
  exact h h3

lemma mkCurl_prefix_no_match (url T : List Char)
    (hnoH : hasSeq ['-', 'H'] url = false) :
    ∀ s, s ≠ [] → s <:+ ("curl ".data ++ [sqc]) ++ (url ++ [sqc]) →
      matchHAt (s ++ T) = none := by
  intro s hs hsuf
  rcases suffix_append_cases _ _ _ hsuf with hcase | ⟨s1, hs1ne, hs1suf, rfl⟩
  · rcases suffix_append_cases _ _ _ hcase with hcase2 | ⟨s1, hs1ne, hs1suf, rfl⟩
    · rcases List.suffix_cons_iff.mp hcase2 with rfl | hcase3
      · exact matchHAt_cons_ne _ (by decide)
      · have h0 : s = [] := List.eq_nil_of_suffix_nil hcase3
        exact absurd h0 hs
    · cases s1 with
      | nil => exact absurd rfl hs1ne
      | cons c s2 =>
        rw [List.cons_append, List.cons_append]
        by_cases hc : c = '-'
        · subst hc
          cases s2 with
          | nil =>
            apply matchHAt_eq_none
            simp only [List.cons_append, List.nil_append, List.singleton_append,
              List.take_succ_cons, List.take_zero]
            intro h2
            injection h2 with h3 h4
            injection h4 with h5 h6
            exact absurd h5 (by decide)
          | cons d s3 =>
            by_cases hd : d = 'H'
            · exfalso
              subst hd
              have hpre : ['-', 'H'] <+: ('-' :: 'H' :: s3) := ⟨s3, rfl⟩
              have htrue := hasSeq_of_prefix_suffix hpre hs1suf
              rw [htrue] at hnoH
              exact Bool.true_eq_false.mp hnoH
            · apply matchHAt_eq_none
              simp only [List.cons_append, List.take_succ_cons, List.take_zero]
              intro h2
              injection h2 with h3 h4
              injection h4 with h5 h6
              exact hd h5
        · exact matchHAt_cons_ne _ hc
  · have hmem : s1 ∈ ("curl ".data ++ [sqc]).tails := (List.mem_tails _ _).mpr hs1suf
    fin_cases hmem
    · exact matchHAt_cons_ne _ (by decide)
    · exact matchHAt_cons_ne _ (by decide)
    · exact matchHAt_cons_ne _ (by decide)
    · exact matchHAt_cons_ne _ (by decide)
    · exact matchHAt_cons_ne _ (by decide)
    · exact matchHAt_cons_ne _ (by decide)
    · exact absurd rfl hs1ne

lemma findallH_mkCurl (url : List Char) (hs : List (String × String))
    (hnoH : hasSeq ['-', 'H'] url = false)
    (hq : ∀ p ∈ hs, (∀ c ∈ p.1.data, isQuoteChar c = false) ∧
        (∀ c ∈ p.2.data, isQuoteChar c = false)) :
    findallH (mkCurlData url hs)
      = hs.map (fun p => p.1.data ++ ':' :: ' ' :: p.2.data) := by
  have hm : mkCurlData url hs
      = (("curl ".data ++ [sqc]) ++ (url ++ [sqc])) ++ hdrsData hs := by
    unfold mkCurlData
    simp [List.append_assoc]
  rw [hm, findallH_append_skip _ _ (mkCurl_prefix_no_match url (hdrsData hs) hnoH),
    findallH_hdrsData hs hq]

lemma searchUrl_mkCurl (url : List Char) (hs : List (String × String))
    (hurl : (∃ r, url = "http://".data ++ r ∧ r ≠ [] ∧
               ∀ c ∈ r, isUrlChar c = true) ∨
            (∃ r, url = "https://".data ++ r ∧ r ≠ [] ∧
               ∀ c ∈ r, isUrlChar c = true)) :
    searchUrl (mkCurlData url hs) = some url := by
  have hm : mkCurlData url hs
      = 'c' :: 'u' :: 'r' :: 'l' :: ' ' :: sqc :: (url ++ sqc :: hdrsData hs) := rfl
  rw [hm]
  have htail : tryUrlTail (sqc :: (url ++ sqc :: hdrsData hs)) = some url := by
    simp only [tryUrlTail, if_pos (show isQuoteChar sqc = true by decide)]
    rcases hurl with ⟨r, hre, hrne, hrok⟩ | ⟨r, hre, hrne, hrok⟩
    · subst hre
      show tryScheme ('h' :: 't' :: 't' :: 'p' :: ':' :: '/' :: '/' ::
        (r ++ sqc :: hdrsData hs)) = _
      simp only [tryScheme]
      have hrun : ((r ++ sqc :: hdrsData hs).takeWhile isUrlChar) = r :=
        takeWhile_append_all _ r sqc _ (fun a ha => hrok a ha) (by decide)
      rw [hrun, if_neg hrne]
    · subst hre
      show tryScheme ('h' :: 't' :: 't' :: 'p' :: 's' :: ':' :: '/' :: '/' ::
        (r ++ sqc :: hdrsData hs)) = _
      simp only [tryScheme]
      have hrun : ((r ++ sqc :: hdrsData hs).takeWhile isUrlChar) = r :=
        takeWhile_append_all _ r sqc _ (fun a ha => hrok a ha) (by decide)
      rw [hrun, if_neg hrne]
  have htw : ((' ' :: sqc :: (url ++ sqc :: hdrsData hs)).takeWhile isPyWs)
      = [' '] := by
    rw [List.takeWhile_cons_of_pos (by decide),
      List.takeWhile_cons_of_neg (by decide)]
  have hmu : matchUrlAt ('c' :: 'u' :: 'r' :: 'l' :: ' ' :: sqc ::
      (url ++ sqc :: hdrsData hs)) = some url := by
    simp only [matchUrlAt]
    rw [htw]
    simp only [List.length_cons, List.length_nil, Nat.zero_add]
    simp only [tryUrlSpaces, List.drop_succ_cons, List.drop_zero]
    rw [htail]
  simp only [searchUrl]
  rw [hmu]

/-- C5: for every well-formed request description built from a manifest
URL and N header declarations with pairwise distinct names (names and
values quote-free, names free of the colon-space separator, the URL an
http or https URL of body characters with no dash-H sequence, ending in
the manifest suffix before any query string), extract_headers returns
exactly the N declared pairs -- a mapping of size N -- and extract_url
returns exactly the URL string, which is the first match of the URL
pattern in the description. -/
theorem c5_extraction (url : String) (hs : List (String × String))
    (h1 : (∃ r, url.data = "http://".data ++ r ∧ r ≠ [] ∧
             ∀ c ∈ r, isUrlChar c = true) ∨
          (∃ r, url.data = "https://".data ++ r ∧ r ≠ [] ∧
             ∀ c ∈ r, isUrlChar c = true))
    (h2 : hasSeq ['-', 'H'] url.data = false)
    (h3 : ∀ p ∈ hs, (∀ c ∈ p.1.data, isQuoteChar c = false) ∧
          (∀ c ∈ p.2.data, isQuoteChar c = false) ∧
          hasSeq [':', ' '] p.1.data = false)
    (h4 : (hs.map Prod.fst).Nodup)
    (h5 : ".m3u8".data.isSuffixOf (stripQuery url.data) = true) :
    extract_headers (mkCurl url hs) = some hs ∧
    (extract_headers (mkCurl url hs)).map List.length = some hs.length ∧
    extract_url (mkCurl url hs) = Except.ok url := by
  have hhd : extract_headers (mkCurl url hs) = some hs := by
    show buildHeaderDict (findallH (mkCurlData url.data hs)) [] = some hs
    rw [findallH_mkCurl url.data hs h2 (fun p hp => ⟨(h3 p hp).1, (h3 p hp).2.1⟩)]
    have hb := buildHeaderDict_distinct hs [] (fun p hp => (h3 p hp).2.2) h4
      (by simp)
    simpa using hb
  have hu : extract_url (mkCurl url hs) = Except.ok url := by
    unfold extract_url
    have hsm : (mkCurl url hs).data = mkCurlData url.data hs := rfl
    rw [hsm, searchUrl_mkCurl url.data hs h1]
    show (if ".m3u8".data.isSuffixOf (stripQuery url.data) = true
        then Except.ok (String.mk url.data)
        else Except.error "The URL does not point to an .m3u8 file.")
      = Except.ok url
    rw [if_pos h5]
  refine ⟨hhd, ?_, hu⟩
  rw [hhd]
  rfl

/-- Witness for C5 at a concrete request description with two
headers. -/
theorem c5_witness :
    extract_headers (mkCurl "https://x.test/master.m3u8?tok=5"
        [("Authorization", "Bearer t"), ("Accept", "abc")])
      = some [("Authorization", "Bearer t"), ("Accept", "abc")] ∧
    (extract_headers (mkCurl "https://x.test/master.m3u8?tok=5"
        [("Authorization", "Bearer t"), ("Accept", "abc")])).map List.length
      = some 2 ∧
    extract_url (mkCurl "https://x.test/master.m3u8?tok=5"
        [("Authorization", "Bearer t"), ("Accept", "abc")])
      = Except.ok "https://x.test/master.m3u8?tok=5" :=
  c5_extraction "https://x.test/master.m3u8?tok=5"
    [("Authorization", "Bearer t"), ("Accept", "abc")]
    (Or.inr ⟨"x.test/master.m3u8?tok=5".data, by decide, by decide, by decide⟩)
    (by decide) (by decide) (by decide) (by decide)
